import Mathlib

/-!
Verification of the coordination core of the spotify-api-hacks crawler.

The development shallowly embeds, in order:
* the prefix alphabet and `char_increment` from `services/search_generator.py`,
  together with the batch generator `generate_batch`;
* the bijective-numeration value function used to analyse the increment;
* the Redis-backed sliding-window rate limiter `record_api_request` from
  `services/redis.py`, its caller loop from `services/spotify.py`;
* the active-search registry (`add_active_search`, `remove_active_search`,
  `_cleanup_stale_searches`, `get_active_searches`) from `services/redis.py`;
* the worker pagination loop and completion/chaining logic from `tasks.py`;
* the `/status` endpoint assembly from `api.py`.

Machine floats (Python `time.time()`) are modelled as rationals; Redis sorted
sets, hashes and sets are modelled as explicit lists with the exact command
semantics used by the source (`ZREMRANGEBYSCORE`, `ZCOUNT`, `ZADD`, `HSET`,
`SADD`, `SREM`, `HDEL`, `SCARD`, `SMEMBERS`).
-/

/-- The ordered alphabet from `SearchStringGenerator`: letters `a..z` first,
then digits `0..9` (source line `valid_chars = 'abcdefghijklmnopqrstuvwxyz0123456789'`). -/
def valid_chars : List Char := "abcdefghijklmnopqrstuvwxyz0123456789".toList

/-- Helper for `char_increment`, processing the string from its end: the
argument is the reversed string, so the head is the source's `s[-1]` and the
tail is `s[:-1]` reversed.  Branches mirror the Python:
empty string returns `'a'`; a last character outside `valid_chars` is replaced
by `'a'`; a non-maximal valid character is replaced by its successor; the
maximal character `'9'` is replaced by `'a'` while the prefix carries. -/
def charIncAux : List Char → List Char
  | [] => ['a']
  | c :: rest =>
    if c ∈ valid_chars then
      if valid_chars.indexOf c < valid_chars.length - 1 then
        valid_chars.getD (valid_chars.indexOf c + 1) 'a' :: rest
      else
        'a' :: charIncAux rest
    else
      'a' :: rest

/-- `SearchStringGenerator.char_increment` (source recursion on `s[:-1]`,
realised here through the reversed string). -/
def char_increment (s : List Char) : List Char :=
  (charIncAux s.reverse).reverse

/-- Faithfulness: the empty-string equation of the Python source. -/
theorem char_increment_nil : char_increment [] = ['a'] := rfl

/-- Faithfulness: a last character outside the alphabet is replaced by `'a'`
(source: `return s[:-1] + 'a'`). -/
theorem char_increment_invalid (s : List Char) (c : Char) (h : c ∉ valid_chars) :
    char_increment (s ++ [c]) = s ++ ['a'] := by
  simp [char_increment, charIncAux, h]

/-- Faithfulness: a non-maximal valid last character is replaced by its
successor in `valid_chars` (source: `return s[:-1] + valid_chars[current_index + 1]`). -/
theorem char_increment_step (s : List Char) (c : Char) (h : c ∈ valid_chars)
    (h2 : valid_chars.indexOf c < valid_chars.length - 1) :
    char_increment (s ++ [c]) = s ++ [valid_chars.getD (valid_chars.indexOf c + 1) 'a'] := by
  simp [char_increment, charIncAux, h, h2]

/-- Faithfulness: the maximal character `'9'` carries
(source: `return SearchStringGenerator.char_increment(s[:-1]) + 'a'`). -/
theorem char_increment_carry (s : List Char) :
    char_increment (s ++ ['9']) = char_increment s ++ ['a'] := by
  have h9 : ('9' : Char) ∈ valid_chars := by decide
  have hidx : ¬ valid_chars.indexOf '9' < valid_chars.length - 1 := by decide
  simp [char_increment, charIncAux, h9, hidx]

/-- `charIncAux` grows the length by one exactly when every character carries. -/
theorem charIncAux_length (rs : List Char) :
    (charIncAux rs).length = rs.length + 1 ↔ ∀ c ∈ rs, c = '9' := by
  induction rs with
  | nil => simp [charIncAux]
  | cons c rest ih =>
    by_cases hc : c ∈ valid_chars
    · by_cases hidx : valid_chars.indexOf c < valid_chars.length - 1
      · have hne : c ≠ '9' := by
          intro h; rw [h] at hidx; exact (by decide : ¬ valid_chars.indexOf '9' < valid_chars.length - 1) hidx
        simp [charIncAux, hc, hidx, hne]
      · have h9 : c = '9' := by
          have : ∀ d ∈ valid_chars, ¬ valid_chars.indexOf d < valid_chars.length - 1 → d = '9' := by decide
          exact this c hc hidx
        subst h9
        simp [charIncAux, hc, hidx, ih]
    · have hne : c ≠ '9' := by
        intro h; rw [h] at hc; exact hc (by decide)
      simp [charIncAux, hc, hne]

/-- C6: the literal increment cases `next("a")="b"`, `next("z")="0"`,
`next("9")="aa"`, `next("az")="a0"`, `next("zz")="z0"`, `next("99")="aaa"`;
when the last character is the maximal `'9'`, the carry replaces it by `'a'`
and recursively increments the remaining prefix; the length grows exactly when
every position carries. -/
theorem c6_char_increment_cases :
    char_increment "a".toList = "b".toList ∧
    char_increment "z".toList = "0".toList ∧
    char_increment "9".toList = "aa".toList ∧
    char_increment "az".toList = "a0".toList ∧
    char_increment "zz".toList = "z0".toList ∧
    char_increment "99".toList = "aaa".toList ∧
    (∀ s : List Char, char_increment (s ++ ['9']) = char_increment s ++ ['a']) ∧
    (∀ s : List Char, (char_increment s).length = s.length + 1 ↔ ∀ c ∈ s, c = '9') := by
  refine ⟨by decide, by decide, by decide, by decide, by decide, by decide,
    char_increment_carry, ?_⟩
  intro s
  have h1 : (char_increment s).length = (charIncAux s.reverse).length := by
    simp [char_increment]
  have h2 := charIncAux_length s.reverse
  rw [h1]
  simp only [List.length_reverse] at h2 ⊢
  rw [h2]
  constructor
  · intro h c hc; exact h c (List.mem_reverse.mpr hc)
  · intro h c hc; exact h c (List.mem_reverse.mp hc)

/-- `SearchStringGenerator.initialize`: seed the cursor from the top completion
row; an empty `search_progress` table yields `"aaaa"`. -/
def initialize_cursor : Option (List Char) → List Char
  | none => "aaaa".toList
  | some last => last

/-- The `for _ in range(remaining)` loop of `generate_batch`: each iteration
first advances `current` and then appends it. -/
def gen_loop : Nat → List (List Char) → List Char → List (List Char) × List Char
  | 0, strings, current => (strings, current)
  | n + 1, strings, current =>
      gen_loop n (strings ++ [char_increment current]) (char_increment current)

/-- `SearchStringGenerator.generate_batch`: bootstrap case emits the cursor
itself when it equals `"aaaa"`, then the loop fills the batch up to
`max_workers`; returns the batch and the final cursor. -/
def generate_batch (maxWorkers : Nat) (cursor : List Char) : List (List Char) × List Char :=
  let strings : List (List Char) := []
  let state :=
    if cursor = "aaaa".toList ∧ strings = [] then
      (strings ++ [cursor], char_increment cursor)
    else
      (strings, cursor)
  gen_loop (maxWorkers - state.1.length) state.1 state.2

/-- C3: with an empty completion table and `max_workers = 3`, the first batch
is `["aaaa","aaac","aaad"]` with final cursor `"aaad"`: the bootstrap branch
advances the cursor once after emitting `"aaaa"` and the loop advances it again
before appending, so `"aaab"` is skipped and never emitted. -/
theorem c3_generate_batch_skips_aaab :
    generate_batch 3 (initialize_cursor none) =
      (["aaaa".toList, "aaac".toList, "aaad".toList], "aaad".toList) ∧
    "aaab".toList ∉ (generate_batch 3 (initialize_cursor none)).1 := by
  constructor
  · decide
  · decide

/-- Position of a character in the alphabet (`valid_chars.index` in the source). -/
def charVal (c : Char) : Nat := valid_chars.indexOf c

/-- Strings over the alphabet Σ = `a..z0..9`. -/
def validStr (s : List Char) : Prop := ∀ c ∈ s, c ∈ valid_chars

instance validStr_decidable (s : List Char) : Decidable (validStr s) :=
  List.decidableBAll _ s

/-- Bijective base-36 value of a reversed string: the odometer ordering of
§4.4 enumerated by this value. -/
def valRev : List Char → Nat
  | [] => 0
  | c :: rest => 36 * valRev rest + (charVal c + 1)

/-- Bijective base-36 value of a string: position in length-then-lex order. -/
def strVal (s : List Char) : Nat := valRev s.reverse

/-- Inverse of `valRev`: the reversed string of given value. -/
def ofValRev : Nat → List Char
  | 0 => []
  | n + 1 => valid_chars.getD (n % 36) 'a' :: ofValRev (n / 36)
decreasing_by exact Nat.lt_succ_of_le (Nat.div_le_self n 36)

theorem charVal_getD : ∀ k, k < 36 → charVal (valid_chars.getD k 'a') = k := by decide

theorem getD_mem_valid : ∀ k, k < 36 → valid_chars.getD k 'a' ∈ valid_chars := by decide

theorem charVal_lt_36 : ∀ c ∈ valid_chars, charVal c < 36 := by decide

theorem max_char_is_nine :
    ∀ d ∈ valid_chars, ¬ valid_chars.indexOf d < valid_chars.length - 1 → d = '9' := by decide

theorem valRev_ofValRev : ∀ n, valRev (ofValRev n) = n := by
  intro n
  induction n using Nat.strong_induction_on with
  | _ n ih =>
    match n with
    | 0 => simp [ofValRev, valRev]
    | m + 1 =>
      rw [ofValRev, valRev, ih (m / 36) (Nat.lt_succ_of_le (Nat.div_le_self m 36)),
        charVal_getD (m % 36) (Nat.mod_lt _ (by norm_num))]
      omega

theorem ofValRev_valid : ∀ n, ∀ c ∈ ofValRev n, c ∈ valid_chars := by
  intro n
  induction n using Nat.strong_induction_on with
  | _ n ih =>
    match n with
    | 0 => intro c hc; simp [ofValRev] at hc
    | m + 1 =>
      intro c hc
      rw [ofValRev] at hc
      rcases List.mem_cons.mp hc with h | h
      · rw [h]; exact getD_mem_valid _ (Nat.mod_lt _ (by norm_num))
      · exact ih (m / 36) (Nat.lt_succ_of_le (Nat.div_le_self m 36)) c h

theorem valRev_inj : ∀ rs ts : List Char, (∀ c ∈ rs, c ∈ valid_chars) →
    (∀ c ∈ ts, c ∈ valid_chars) → valRev rs = valRev ts → rs = ts := by
  intro rs
  induction rs with
  | nil =>
    intro ts _ hts h
    cases ts with
    | nil => rfl
    | cons b t => simp only [valRev] at h; omega
  | cons a s ih =>
    intro ts hs hts h
    cases ts with
    | nil => simp only [valRev] at h; omega
    | cons b t =>
      have ha : a ∈ valid_chars := hs a (List.mem_cons_self a s)
      have hb : b ∈ valid_chars := hts b (List.mem_cons_self b t)
      have hda : charVal a < 36 := charVal_lt_36 a ha
      have hdb : charVal b < 36 := charVal_lt_36 b hb
      simp only [valRev] at h
      have hd : charVal a = charVal b := by omega
      have htl : valRev s = valRev t := by omega
      have hab : a = b := ((List.indexOf_inj ha hb).mp hd)
      rw [hab, ih t (fun c hc => hs c (List.mem_cons_of_mem a hc))
        (fun c hc => hts c (List.mem_cons_of_mem b hc)) htl]

theorem valRev_charIncAux (rs : List Char) (h : ∀ c ∈ rs, c ∈ valid_chars) :
    valRev (charIncAux rs) = valRev rs + 1 ∧ ∀ c ∈ charIncAux rs, c ∈ valid_chars := by
  induction rs with
  | nil =>
    constructor
    · decide
    · decide
  | cons c rest ih =>
    have hc : c ∈ valid_chars := h c (List.mem_cons_self c rest)
    have hrest : ∀ d ∈ rest, d ∈ valid_chars := fun d hd => h d (List.mem_cons_of_mem c hd)
    obtain ⟨ihv, ihm⟩ := ih hrest
    by_cases hidx : valid_chars.indexOf c < valid_chars.length - 1
    · have hlt : valid_chars.indexOf c + 1 < 36 := by
        have : valid_chars.length = 36 := by decide
        omega
      constructor
      · simp only [charIncAux, hc, hidx, if_true, if_pos, valRev]
        have h1 : charVal (valid_chars.getD (valid_chars.indexOf c + 1) 'a')
            = valid_chars.indexOf c + 1 := charVal_getD _ hlt
        rw [h1]
        simp only [charVal]
        omega
      · intro d hd
        simp only [charIncAux, hc, hidx, if_true, if_pos] at hd
        rcases List.mem_cons.mp hd with h1 | h1
        · rw [h1]; exact getD_mem_valid _ hlt
        · exact hrest d h1
    · have h9 : c = '9' := max_char_is_nine c hc hidx
      constructor
      · simp only [charIncAux, hc, hidx, if_true, if_false, if_neg, valRev, ihv]
        have hv9 : charVal c = 35 := by rw [h9]; decide
        have hva : charVal 'a' = 0 := by decide
        rw [hv9, hva]
        omega
      · intro d hd
        simp only [charIncAux, hc, hidx, if_true, if_false, if_neg] at hd
        rcases List.mem_cons.mp hd with h1 | h1
        · rw [h1]; decide
        · exact ihm d h1

theorem charIncAux_ne_nil (rs : List Char) : charIncAux rs ≠ [] := by
  cases rs with
  | nil => simp [charIncAux]
  | cons c rest =>
    simp only [charIncAux]
    split
    · split
      · simp
      · simp
    · simp

theorem char_increment_ne_nil (s : List Char) : char_increment s ≠ [] := by
  simp only [char_increment, ne_eq, List.reverse_eq_nil_iff]
  exact charIncAux_ne_nil s.reverse

theorem validStr_reverse {s : List Char} (h : validStr s) : ∀ c ∈ s.reverse, c ∈ valid_chars :=
  fun c hc => h c (List.mem_reverse.mp hc)

theorem strVal_char_increment (s : List Char) (h : validStr s) :
    strVal (char_increment s) = strVal s + 1 ∧ validStr (char_increment s) := by
  obtain ⟨hv, hm⟩ := valRev_charIncAux s.reverse (validStr_reverse h)
  constructor
  · simp only [strVal, char_increment, List.reverse_reverse]
    exact hv
  · intro c hc
    simp only [char_increment] at hc
    exact hm c (List.mem_reverse.mp hc)

theorem strVal_inj {s t : List Char} (hs : validStr s) (ht : validStr t)
    (h : strVal s = strVal t) : s = t :=
  List.reverse_injective
    (valRev_inj s.reverse t.reverse (validStr_reverse hs) (validStr_reverse ht) h)

/-- Value of the length-`L` minimum string `a^L`; also the number of strings
of length below `L`. -/
def lowVal : Nat → Nat
  | 0 => 0
  | L + 1 => 36 * lowVal L + 1

theorem lowVal_pow : ∀ L, 35 * lowVal L + 1 = 36 ^ L := by
  intro L
  induction L with
  | zero => simp [lowVal]
  | succ L ih => simp only [lowVal, pow_succ]; omega

theorem lowVal_strict : ∀ L, lowVal L < lowVal (L + 1) := by
  intro L; simp only [lowVal]; omega

theorem lowVal_mono : ∀ {L M : Nat}, L ≤ M → lowVal L ≤ lowVal M := by
  intro L M h
  induction h with
  | refl => exact le_refl _
  | step _ ih => exact le_trans ih (le_of_lt (lowVal_strict _))

theorem valRev_bounds (rs : List Char) (h : ∀ c ∈ rs, c ∈ valid_chars) :
    lowVal rs.length ≤ valRev rs ∧ valRev rs < lowVal (rs.length + 1) := by
  induction rs with
  | nil => simp [valRev, lowVal]
  | cons c rest ih =>
    have hc : charVal c < 36 := charVal_lt_36 c (h c (List.mem_cons_self c rest))
    obtain ⟨ih1, ih2⟩ := ih (fun d hd => h d (List.mem_cons_of_mem c hd))
    have h1 : lowVal (rest.length + 1) = 36 * lowVal rest.length + 1 := rfl
    have h2 : lowVal (rest.length + 1 + 1) = 36 * lowVal (rest.length + 1) + 1 := rfl
    simp only [valRev, List.length_cons]
    omega

theorem valRev_concat (xs : List Char) (a : Char) :
    valRev (xs ++ [a]) = valRev xs + (charVal a + 1) * 36 ^ xs.length := by
  induction xs with
  | nil => simp [valRev]
  | cons c xs ih =>
    have h : (c :: xs) ++ [a] = c :: (xs ++ [a]) := rfl
    rw [h, valRev, ih, valRev, List.length_cons, pow_succ]
    ring

theorem strVal_cons (a : Char) (s : List Char) :
    strVal (a :: s) = strVal s + (charVal a + 1) * 36 ^ s.length := by
  simp only [strVal, List.reverse_cons, valRev_concat, List.length_reverse]

theorem strVal_bounds (s : List Char) (h : validStr s) :
    lowVal s.length ≤ strVal s ∧ strVal s < lowVal (s.length + 1) := by
  have := valRev_bounds s.reverse (validStr_reverse h)
  simpa [strVal] using this

/-- Strict lexicographic comparison of equal-length strings, position by
position in alphabet order (letters strictly before digits). -/
def lexLtB : List Char → List Char → Bool
  | _, [] => false
  | [], _ :: _ => true
  | a :: s, b :: t => decide (charVal a < charVal b) || (a == b && lexLtB s t)

/-- Length-then-lex order on prefixes: shorter strings strictly first, then
lexicographic within a length (§3 of the spec). -/
def llexLt (s t : List Char) : Prop :=
  s.length < t.length ∨ (s.length = t.length ∧ lexLtB s t = true)

theorem lexLt_strVal : ∀ s t : List Char, validStr s → validStr t →
    s.length = t.length → lexLtB s t = true → strVal s < strVal t := by
  intro s
  induction s with
  | nil =>
    intro t _ _ hlen hlex
    cases t with
    | nil => simp [lexLtB] at hlex
    | cons b u => simp at hlen
  | cons a s ih =>
    intro t hs ht hlen hlex
    cases t with
    | nil => simp [lexLtB] at hlex
    | cons b u =>
      have hsl : s.length = u.length := by simpa using hlen
      have hvs : validStr s := fun c hc => hs c (List.mem_cons_of_mem a hc)
      have hvu : validStr u := fun c hc => ht c (List.mem_cons_of_mem b hc)
      have hbs := strVal_bounds s hvs
      have hbu := strVal_bounds u hvu
      rw [← hsl] at hbu
      have hE : 35 * lowVal s.length + 1 = 36 ^ s.length := lowVal_pow s.length
      have hl1 : lowVal (s.length + 1) = 36 * lowVal s.length + 1 := rfl
      rw [strVal_cons, strVal_cons, ← hsl]
      simp only [lexLtB, Bool.or_eq_true, Bool.and_eq_true, beq_iff_eq,
        decide_eq_true_eq] at hlex
      rcases hlex with hab | ⟨hab, htail⟩
      · have hmul : (charVal a + 1 + 1) * 36 ^ s.length ≤ (charVal b + 1) * 36 ^ s.length :=
          Nat.mul_le_mul_right _ (by omega)
        have hadd : (charVal a + 1 + 1) * 36 ^ s.length
            = (charVal a + 1) * 36 ^ s.length + 36 ^ s.length := by ring
        rw [hadd] at hmul
        omega
      · subst hab
        have := ih u hvs hvu hsl htail
        omega

theorem lexLt_total : ∀ s t : List Char, validStr s → validStr t →
    s.length = t.length → lexLtB s t = true ∨ s = t ∨ lexLtB t s = true := by
  intro s
  induction s with
  | nil =>
    intro t _ _ hlen
    cases t with
    | nil => right; left; rfl
    | cons b u => simp at hlen
  | cons a s ih =>
    intro t hs ht hlen
    cases t with
    | nil => simp at hlen
    | cons b u =>
      have hsl : s.length = u.length := by simpa using hlen
      have hvs : validStr s := fun c hc => hs c (List.mem_cons_of_mem a hc)
      have hvu : validStr u := fun c hc => ht c (List.mem_cons_of_mem b hc)
      have ha : a ∈ valid_chars := hs a (List.mem_cons_self a s)
      have hb : b ∈ valid_chars := ht b (List.mem_cons_self b u)
      rcases Nat.lt_trichotomy (charVal a) (charVal b) with hv | hv | hv
      · left; simp [lexLtB, hv]
      · have hab : a = b := (List.indexOf_inj ha hb).mp hv
        subst hab
        rcases ih u hvs hvu hsl with h | h | h
        · left; simp [lexLtB, h]
        · right; left; rw [h]
        · right; right; simp [lexLtB, h]
      · right; right; simp [lexLtB, hv]

theorem llexLt_iff_strVal (s t : List Char) (hs : validStr s) (ht : validStr t) :
    llexLt s t ↔ strVal s < strVal t := by
  constructor
  · rintro (hlen | ⟨hlen, hlex⟩)
    · have h1 := (strVal_bounds s hs).2
      have h2 := (strVal_bounds t ht).1
      have h3 : lowVal (s.length + 1) ≤ lowVal t.length := lowVal_mono hlen
      omega
    · exact lexLt_strVal s t hs ht hlen hlex
  · intro hv
    rcases Nat.lt_trichotomy s.length t.length with hlen | hlen | hlen
    · exact Or.inl hlen
    · rcases lexLt_total s t hs ht hlen with h | h | h
      · exact Or.inr ⟨hlen, h⟩
      · subst h; omega
      · have := lexLt_strVal t s ht hs hlen.symm h; omega
    · have h1 := (strVal_bounds t ht).2
      have h2 := (strVal_bounds s hs).1
      have h3 : lowVal (t.length + 1) ≤ lowVal s.length := lowVal_mono hlen
      omega

/-- The iteration of `char_increment` starting from `"a"`. -/
def iterA (n : Nat) : List Char := char_increment^[n] ['a']

theorem iterA_strVal : ∀ n, validStr (iterA n) ∧ strVal (iterA n) = n + 1 := by
  intro n
  induction n with
  | zero =>
    constructor
    · decide
    · decide
  | succ n ih =>
    have hstep : iterA (n + 1) = char_increment (iterA n) := by
      simp [iterA, Function.iterate_succ_apply']
    obtain ⟨hv, he⟩ := strVal_char_increment (iterA n) ih.1
    rw [hstep]
    exact ⟨he, by rw [hv, ih.2]⟩

/-- Counterexample to C7 as stated: the empty string belongs to Σ* but is
never visited when iterating `char_increment` from `"a"`. -/
theorem c7_counterexample : validStr [] ∧ ∀ n : Nat, iterA n ≠ [] := by
  constructor
  · intro c hc; cases hc
  · intro n h
    have := (iterA_strVal n).2
    rw [h] at this
    simp [strVal, valRev] at this

/-- The string of a given value in the odometer ordering (inverse of `strVal`). -/
def ofVal (n : Nat) : List Char := (ofValRev n).reverse

theorem strVal_ofVal (n : Nat) : strVal (ofVal n) = n := by
  simp only [strVal, ofVal, List.reverse_reverse]
  exact valRev_ofValRev n

theorem ofVal_valid (n : Nat) : validStr (ofVal n) := by
  intro c hc
  exact ofValRev_valid n c (List.mem_reverse.mp hc)

theorem strVal_pos {t : List Char} (h : t ≠ []) : 1 ≤ strVal t := by
  have hrev : t.reverse ≠ [] := by
    simpa [List.reverse_eq_nil_iff] using h
  cases hr : t.reverse with
  | nil => exact absurd hr hrev
  | cons c rest =>
    simp only [strVal, hr, valRev]
    omega

/-- C7 (amended): restricted to Σ*, `char_increment` is a bijection from Σ*
onto the set of non-empty strings over Σ, and iterating it from `"a"`
visits exactly the non-empty strings of Σ*, in strictly increasing
length-then-lex order (shorter strings strictly before longer ones, letters
before digits within a position); the empty string of Σ* is never visited. -/
theorem c7_increment_bijection_enumeration :
    (∀ s, validStr s → validStr (char_increment s) ∧ char_increment s ≠ []) ∧
    (∀ s t, validStr s → validStr t → char_increment s = char_increment t → s = t) ∧
    (∀ t, validStr t → t ≠ [] → ∃ s, validStr s ∧ char_increment s = t) ∧
    (∀ n : Nat, validStr (iterA n) ∧ iterA n ≠ []) ∧
    (∀ t, validStr t → t ≠ [] → ∃ n : Nat, iterA n = t) ∧
    (∀ m n : Nat, m < n → llexLt (iterA m) (iterA n)) := by
  refine ⟨?_, ?_, ?_, ?_, ?_, ?_⟩
  · intro s hs
    exact ⟨(strVal_char_increment s hs).2, char_increment_ne_nil s⟩
  · intro s t hs ht h
    have h1 := (strVal_char_increment s hs).1
    have h2 := (strVal_char_increment t ht).1
    apply strVal_inj hs ht
    have : strVal (char_increment s) = strVal (char_increment t) := by rw [h]
    omega
  · intro t ht hne
    refine ⟨ofVal (strVal t - 1), ofVal_valid _, ?_⟩
    have hpos := strVal_pos hne
    have hv := (strVal_char_increment (ofVal (strVal t - 1)) (ofVal_valid _)).1
    apply strVal_inj (strVal_char_increment _ (ofVal_valid _)).2 ht
    rw [hv, strVal_ofVal]
    omega
  · intro n
    refine ⟨(iterA_strVal n).1, ?_⟩
    intro h
    have := (iterA_strVal n).2
    rw [h] at this
    simp [strVal, valRev] at this
  · intro t ht hne
    refine ⟨strVal t - 1, ?_⟩
    have hpos := strVal_pos hne
    apply strVal_inj (iterA_strVal _).1 ht
    rw [(iterA_strVal (strVal t - 1)).2]
    omega
  · intro m n hmn
    rw [llexLt_iff_strVal _ _ (iterA_strVal m).1 (iterA_strVal n).1,
      (iterA_strVal m).2, (iterA_strVal n).2]
    omega

/-- Witness instantiating the amended C7 at the concrete string `"az"`. -/
theorem c7_increment_bijection_enumeration_witness :
    validStr "az".toList ∧
    validStr (char_increment "az".toList) ∧ char_increment "az".toList ≠ [] :=
  ⟨by decide, (c7_increment_bijection_enumeration.1 "az".toList (by decide)).1,
    (c7_increment_bijection_enumeration.1 "az".toList (by decide)).2⟩

/-- The unique member tag `⟨query:offset:now⟩` of a rate-limit record
(`request_key = f"{query}:{offset}:{now}"` in the source). -/
structure RequestTag where
  query : String
  offset : Nat
  time : ℚ
deriving DecidableEq

/-- One entry of the `api_requests` sorted set: member tag and score. -/
structure RequestRecord where
  member : RequestTag
  score : ℚ
deriving DecidableEq

/-- The `request:<tag>` hash written by the admission script. -/
structure RequestMeta where
  query : String
  offset : Nat
  limit : Nat
  timestamp : ℚ
  artists_found : Nat
deriving DecidableEq

/-- `ZREMRANGEBYSCORE key lo hi`: drop every record whose score lies in `[lo, hi]`. -/
def zremrangebyscore (lo hi : ℚ) (l : List RequestRecord) : List RequestRecord :=
  l.filter fun r => !(decide (lo ≤ r.score) && decide (r.score ≤ hi))

/-- `ZCOUNT key lo +inf`: count the records with score `≥ lo`. -/
def zcountFrom (lo : ℚ) (l : List RequestRecord) : Nat :=
  (l.filter fun r => decide (lo ≤ r.score)).length

/-- `ZADD key score member`: update the member's score if present, else append. -/
def zadd (l : List RequestRecord) (tag : RequestTag) (score : ℚ) : List RequestRecord :=
  if l.any fun r => r.member == tag then
    l.map fun r => if r.member == tag then { r with score := score } else r
  else
    l ++ [⟨tag, score⟩]

/-- Association-list update, modelling `HSET` on a hash key. -/
def assocSet {α β : Type} [DecidableEq α] (l : List (α × β)) (k : α) (v : β) : List (α × β) :=
  if l.any fun p => p.1 == k then
    l.map fun p => if p.1 == k then (k, v) else p
  else
    l ++ [(k, v)]

/-- Association-list lookup, modelling `HGET`/hash reads. -/
def assocGet {α β : Type} [DecidableEq α] (l : List (α × β)) (k : α) : Option β :=
  (l.find? fun p => p.1 == k).map Prod.snd

/-- Association-list delete, modelling `HDEL`. -/
def assocDel {α β : Type} [DecidableEq α] (l : List (α × β)) (k : α) : List (α × β) :=
  l.filter fun p => !(p.1 == k)

theorem find_map_overwrite {α β : Type} [DecidableEq α] (l : List (α × β)) (k : α) (v : β)
    (h : (l.any fun p => p.1 == k) = true) :
    ((l.map fun p => if p.1 == k then (k, v) else p).find? fun p => p.1 == k)
      = some (k, v) := by
  induction l with
  | nil => simp at h
  | cons p l ih =>
    simp only [List.map_cons]
    by_cases hp : (p.1 == k) = true
    · rw [if_pos hp, List.find?_cons]
      simp
    · rw [if_neg hp, List.find?_cons]
      have hpf : (p.1 == k) = false := by rwa [Bool.not_eq_true] at hp
      rw [hpf]
      simp only [List.any_cons, Bool.or_eq_true] at h
      exact ih (h.resolve_left hp)

theorem find_append_single {α β : Type} [DecidableEq α] (l : List (α × β)) (k : α) (v : β)
    (hall : ∀ p ∈ l, (p.1 == k) = false) :
    ((l ++ [(k, v)]).find? fun p => p.1 == k) = some (k, v) := by
  induction l with
  | nil => simp [List.find?_cons]
  | cons p l ih =>
    rw [List.cons_append, List.find?_cons, hall p (List.mem_cons_self p l)]
    exact ih fun q hq => hall q (List.mem_cons_of_mem p hq)

theorem assocGet_assocSet {α β : Type} [DecidableEq α] (l : List (α × β)) (k : α) (v : β) :
    assocGet (assocSet l k v) k = some v := by
  by_cases h : (l.any fun p => p.1 == k) = true
  · simp only [assocSet, if_pos h, assocGet, find_map_overwrite l k v h, Option.map_some']
  · have hall : ∀ p ∈ l, (p.1 == k) = false := by
      intro p hp
      by_contra hc
      rw [Bool.not_eq_false] at hc
      exact h (List.any_eq_true.mpr ⟨p, hp, hc⟩)
    simp only [assocSet, if_neg h, assocGet, find_append_single l k v hall, Option.map_some']

/-- The Redis keys touched by the rate limiter: the `api_requests` sorted set,
the `request:<tag>` hashes, and the TTLs set by `EXPIRE`. -/
structure RedisState where
  requests : List RequestRecord
  meta : List (RequestTag × RequestMeta)
  metaTtl : List (RequestTag × ℚ)
  requestsTtl : Option ℚ
deriving DecidableEq

/-- `RedisService.record_api_request`: the atomic Lua check-and-add script.
In order: `ZREMRANGEBYSCORE api_requests 0 window_start`, count via
`ZCOUNT window_start +inf`, return `0` (false) if `count >= max_requests`,
otherwise `ZADD` the tag `⟨query:offset:now⟩` scored by `now`, `HSET` its
metadata with `artists_found = 0`, `EXPIRE` both keys for 60 seconds, and
return `1` (true); `window_start = now - rate_limit_window`. -/
def record_api_request (rate_limit_window rate_limit_max : Nat) (st : RedisState)
    (now : ℚ) (query : String) (offset limit : Nat) : Bool × RedisState :=
  if rate_limit_max ≤ zcountFrom (now - (rate_limit_window : ℚ))
      (zremrangebyscore 0 (now - (rate_limit_window : ℚ)) st.requests) then
    (false, { st with requests := zremrangebyscore 0 (now - (rate_limit_window : ℚ)) st.requests })
  else
    (true,
      { requests := zadd (zremrangebyscore 0 (now - (rate_limit_window : ℚ)) st.requests)
          ⟨query, offset, now⟩ now
        meta := assocSet st.meta ⟨query, offset, now⟩ ⟨query, offset, limit, now, 0⟩
        metaTtl := assocSet st.metaTtl ⟨query, offset, now⟩ 60
        requestsTtl := some 60 })

/-- Number of rate-limit records with timestamp in the half-open window
`(now − W, now]` (invariant I3 counts these). -/
def windowCount (l : List RequestRecord) (now : ℚ) (W : Nat) : Nat :=
  (l.filter fun r => decide (now - (W : ℚ) < r.score) && decide (r.score ≤ now)).length

theorem zadd_length (l : List RequestRecord) (tag : RequestTag) (score : ℚ) :
    (zadd l tag score).length ≤ l.length + 1 := by
  unfold zadd
  split
  · rw [List.length_map]; omega
  · rw [List.length_append]; simp

theorem mem_zadd_self (l : List RequestRecord) (tag : RequestTag) (score : ℚ) :
    ∃ r ∈ zadd l tag score, r.member = tag ∧ r.score = score := by
  unfold zadd
  split
  · rename_i h
    obtain ⟨r, hr, hm⟩ := List.any_eq_true.mp h
    refine ⟨{ r with score := score }, ?_, ?_, rfl⟩
    · have hmem := List.mem_map_of_mem
        (fun r : RequestRecord => if (r.member == tag) = true
          then { r with score := score } else r) hr
      simpa [hm] using hmem
    · exact beq_iff_eq.mp hm
  · exact ⟨⟨tag, score⟩, List.mem_append_right _ (List.mem_cons_self _ _), rfl, rfl⟩

/-- C1: `record_api_request` evicts exactly the records with timestamp
`≤ now − W` (given non-negative timestamps), returns false iff the surviving
in-window count has reached `rate_limit_max`, leaves the state evicted-only in
that case, otherwise adds the single record `⟨query:offset:now⟩` scored by
`now` together with its metadata hash and 60-second TTLs and returns true; and
immediately after any admission that returns true the number of records with
timestamp in `(now − W, now]` is at most `rate_limit_max`. -/
theorem c1_try_admit_spec (W R : Nat) (st : RedisState) (now : ℚ)
    (q : String) (off lim : Nat)
    (hpos : ∀ r ∈ st.requests, 0 ≤ r.score) :
    (zremrangebyscore 0 (now - (W : ℚ)) st.requests
      = st.requests.filter fun r => decide (now - (W : ℚ) < r.score)) ∧
    ((record_api_request W R st now q off lim).1 = false ↔
      R ≤ zcountFrom (now - (W : ℚ)) (zremrangebyscore 0 (now - (W : ℚ)) st.requests)) ∧
    ((record_api_request W R st now q off lim).1 = false →
      (record_api_request W R st now q off lim).2
        = { st with requests := zremrangebyscore 0 (now - (W : ℚ)) st.requests }) ∧
    ((record_api_request W R st now q off lim).1 = true →
      (∃ r ∈ (record_api_request W R st now q off lim).2.requests,
          r.member = ⟨q, off, now⟩ ∧ r.score = now) ∧
      assocGet (record_api_request W R st now q off lim).2.meta ⟨q, off, now⟩
        = some ⟨q, off, lim, now, 0⟩ ∧
      assocGet (record_api_request W R st now q off lim).2.metaTtl ⟨q, off, now⟩ = some 60 ∧
      (record_api_request W R st now q off lim).2.requestsTtl = some 60) ∧
    ((record_api_request W R st now q off lim).1 = true →
      windowCount (record_api_request W R st now q off lim).2.requests now W ≤ R) := by
  have hclean : zremrangebyscore 0 (now - (W : ℚ)) st.requests
      = st.requests.filter fun r => decide (now - (W : ℚ) < r.score) := by
    apply List.filter_congr
    intro r hr
    have h0 : (0 : ℚ) ≤ r.score := hpos r hr
    by_cases hlt : now - (W : ℚ) < r.score
    · have hn : ¬ r.score ≤ now - (W : ℚ) := not_le.mpr hlt
      simp [hlt, hn, h0]
    · have hle : r.score ≤ now - (W : ℚ) := not_lt.mp hlt
      simp [hlt, hle, h0]
  by_cases hR : R ≤ zcountFrom (now - (W : ℚ)) (zremrangebyscore 0 (now - (W : ℚ)) st.requests)
  · have hres : record_api_request W R st now q off lim
        = (false, { st with requests := zremrangebyscore 0 (now - (W : ℚ)) st.requests }) := by
      unfold record_api_request
      rw [if_pos hR]
    refine ⟨hclean, ?_, ?_, ?_, ?_⟩
    · rw [hres]; simpa using hR
    · intro _; rw [hres]
    · intro htrue; rw [hres] at htrue; simp at htrue
    · intro htrue; rw [hres] at htrue; simp at htrue
  · have hres : record_api_request W R st now q off lim
        = (true,
          { requests := zadd (zremrangebyscore 0 (now - (W : ℚ)) st.requests) ⟨q, off, now⟩ now
            meta := assocSet st.meta ⟨q, off, now⟩ ⟨q, off, lim, now, 0⟩
            metaTtl := assocSet st.metaTtl ⟨q, off, now⟩ 60
            requestsTtl := some 60 }) := by
      unfold record_api_request
      rw [if_neg hR]
    refine ⟨hclean, ?_, ?_, ?_, ?_⟩
    · rw [hres]; simpa using hR
    · intro hfalse; rw [hres] at hfalse; simp at hfalse
    · intro _
      rw [hres]
      exact ⟨mem_zadd_self _ _ _, assocGet_assocSet _ _ _, assocGet_assocSet _ _ _, rfl⟩
    · intro _
      have hgoal : (record_api_request W R st now q off lim).2.requests
          = zadd (zremrangebyscore 0 (now - (W : ℚ)) st.requests) ⟨q, off, now⟩ now := by
        rw [hres]
      rw [hgoal]
      have hcount : zcountFrom (now - (W : ℚ)) (zremrangebyscore 0 (now - (W : ℚ)) st.requests)
          = (zremrangebyscore 0 (now - (W : ℚ)) st.requests).length := by
        unfold zcountFrom
        rw [List.filter_eq_self.mpr]
        intro r hr
        rw [hclean] at hr
        have hlt : now - (W : ℚ) < r.score := of_decide_eq_true (List.mem_filter.mp hr).2
        simp [le_of_lt hlt]
      have hwc : windowCount (zadd (zremrangebyscore 0 (now - (W : ℚ)) st.requests)
          ⟨q, off, now⟩ now) now W
          ≤ (zadd (zremrangebyscore 0 (now - (W : ℚ)) st.requests) ⟨q, off, now⟩ now).length :=
        List.length_filter_le _ _
      have hlen := zadd_length (zremrangebyscore 0 (now - (W : ℚ)) st.requests) ⟨q, off, now⟩ now
      omega

/-- Witness instantiating C1 at the empty Redis state. -/
theorem c1_try_admit_spec_witness :
    (∀ r ∈ (RedisState.mk [] [] [] none).requests, 0 ≤ r.score) ∧
    ((record_api_request 30 10 (RedisState.mk [] [] [] none) 5 "aaaa" 0 50).1 = true →
      windowCount (record_api_request 30 10 (RedisState.mk [] [] [] none) 5 "aaaa" 0 50).2.requests
        5 30 ≤ 10) :=
  ⟨fun r hr => absurd hr (List.not_mem_nil r),
    (c1_try_admit_spec 30 10 (RedisState.mk [] [] [] none) 5 "aaaa" 0 50
      (fun r hr => absurd hr (List.not_mem_nil r))).2.2.2.2⟩

/-- Outcome of one storage round-trip inside `record_api_request`: either the
Lua script ran and returned a value, or the call raised (storage error). -/
inductive AttemptOutcome
  | scriptResult (admitted : Bool)
  | storageError
deriving DecidableEq

/-- The value `record_api_request` returns to its caller for one attempt:
`bool(result)` when the script ran, and `False` from the `except` handler when
the storage operation fails. -/
def record_api_request_result : AttemptOutcome → Bool
  | .scriptResult admitted => admitted
  | .storageError => false

/-- The admission loop of `SpotifyClient._make_request`: `while True` call
`record_api_request` and `break` (then issue the upstream request) only once
an attempt returns true.  Given the sequence of attempt outcomes, this returns
the index of the attempt after which the request is issued, `none` when it is
never issued. -/
def make_request_issue_index : List AttemptOutcome → Option Nat
  | [] => none
  | o :: rest =>
    if record_api_request_result o then some 0
    else (make_request_issue_index rest).map fun n => n + 1

theorem issue_index_admitted : ∀ (l : List AttemptOutcome) (i : Nat),
    make_request_issue_index l = some i →
    record_api_request_result (l.getD i .storageError) = true := by
  intro l
  induction l with
  | nil => intro i h; simp [make_request_issue_index] at h
  | cons o rest ih =>
    intro i h
    by_cases ho : record_api_request_result o = true
    · simp only [make_request_issue_index, ho, if_true, if_pos, Option.some_inj] at h
      rw [← h]
      simpa using ho
    · simp only [make_request_issue_index, ho, if_false, if_neg, Bool.false_eq_true,
        Option.map_eq_some'] at h
      obtain ⟨j, hj, hij⟩ := h
      rw [← hij]
      simpa using ih j hj

/-- C8: on every attempt whose storage operation fails, `record_api_request`
reports non-admission (`false`) to its caller, and the caller does not issue
the upstream request on that attempt: the issuing attempt is never a
storage-error attempt. -/
theorem c8_storage_error_no_request (outcomes : List AttemptOutcome) (i : Nat)
    (h : outcomes.getD i .storageError = .storageError) :
    record_api_request_result .storageError = false ∧
    make_request_issue_index outcomes ≠ some i := by
  refine ⟨rfl, ?_⟩
  intro hsome
  have hadm := issue_index_admitted outcomes i hsome
  rw [h] at hadm
  simp [record_api_request_result] at hadm

/-- Witness instantiating C8 on a failing first attempt followed by a
successful one. -/
theorem c8_storage_error_no_request_witness :
    ([AttemptOutcome.storageError, AttemptOutcome.scriptResult true].getD 0
        AttemptOutcome.storageError = AttemptOutcome.storageError) ∧
    make_request_issue_index [AttemptOutcome.storageError, AttemptOutcome.scriptResult true]
      ≠ some 0 :=
  ⟨rfl, (c8_storage_error_no_request
    [AttemptOutcome.storageError, AttemptOutcome.scriptResult true] 0 rfl).2⟩

/-- The two coordinated registry structures: the `active_searches` set and the
`active_searches:timestamps` hash. -/
structure RegistryState where
  active : List String
  timestamps : List (String × ℚ)
deriving DecidableEq

/-- `SCARD active_searches`. -/
def scard (l : List String) : Nat := l.length

/-- `SADD`: a set does not duplicate members. -/
def sadd (l : List String) (s : String) : List String :=
  if s ∈ l then l else l ++ [s]

/-- `SREM`. -/
def srem (l : List String) (s : String) : List String :=
  l.filter fun x => !(x == s)

/-- `RedisService.add_active_search`: return false when
`SCARD active_searches >= max_workers`; otherwise `SADD` the prefix, `HSET`
its start timestamp, and return true. -/
def add_active_search (max_workers : Nat) (st : RegistryState) (s : String) (now : ℚ) :
    Bool × RegistryState :=
  if max_workers ≤ scard st.active then
    (false, st)
  else
    (true, ⟨sadd st.active s, assocSet st.timestamps s now⟩)

/-- `RedisService.remove_active_search`: `SREM` + `HDEL` in one pipeline. -/
def remove_active_search (st : RegistryState) (s : String) : RegistryState :=
  ⟨srem st.active s, assocDel st.timestamps s⟩

/-- `RedisService._cleanup_stale_searches`: snapshot the set and the timestamp
hash, then remove (via `remove_active_search`) every member whose snapshot
timestamp entry exists and is older than `search_timeout`; a member with no
timestamp entry is left untouched. -/
def cleanup_stale_searches (search_timeout now : ℚ) (st : RegistryState) : RegistryState :=
  st.active.foldl
    (fun acc s =>
      match assocGet st.timestamps s with
      | some t => if t + search_timeout < now then remove_active_search acc s else acc
      | none => acc)
    st

/-- `RedisService.get_active_searches`: run stale cleanup, then `SMEMBERS`. -/
def get_active_searches (search_timeout now : ℚ) (st : RegistryState) :
    List String × RegistryState :=
  ((cleanup_stale_searches search_timeout now st).active,
    cleanup_stale_searches search_timeout now st)

/-- `RedisService.get_active_search_count`: length of `get_active_searches`. -/
def get_active_search_count (search_timeout now : ℚ) (st : RegistryState) :
    Nat × RegistryState :=
  ((get_active_searches search_timeout now st).1.length,
    (get_active_searches search_timeout now st).2)

/-- Counterexample to C4 as stated: with `"aaaa"` already a member and the set
under `max_workers`, `add_active_search` returns true, not false. -/
theorem c4_counterexample :
    "aaaa" ∈ (RegistryState.mk ["aaaa"] [("aaaa", 5)]).active ∧
    scard (RegistryState.mk ["aaaa"] [("aaaa", 5)]).active < 10 ∧
    (add_active_search 10 (RegistryState.mk ["aaaa"] [("aaaa", 5)]) "aaaa" 7).1 = true := by
  refine ⟨?_, ?_, ?_⟩
  · exact List.mem_cons_self _ _
  · decide
  · rfl

theorem mem_sadd_self (l : List String) (s : String) : s ∈ sadd l s := by
  unfold sadd
  split
  · assumption
  · exact List.mem_append_right _ (List.mem_cons_self _ _)

theorem sadd_of_mem {l : List String} {s : String} (h : s ∈ l) : sadd l s = l := by
  unfold sadd
  rw [if_pos h]

theorem sadd_length (l : List String) (s : String) : (sadd l s).length ≤ l.length + 1 := by
  unfold sadd
  split
  · omega
  · simp

/-- C4 (amended): `add_active_search` returns false exactly when the active
set already holds `max_workers` members — membership of the prefix is not
checked, so a prefix that is already present is re-admitted with `true`
whenever capacity remains (its timestamp is re-stamped, the set unchanged);
on success the prefix is a member, its timestamp reads `now`, and the set
stays within `max_workers`. -/
theorem c4_try_register_spec (mw : Nat) (st : RegistryState) (s : String) (now : ℚ) :
    ((add_active_search mw st s now).1 = false ↔ mw ≤ scard st.active) ∧
    ((add_active_search mw st s now).1 = false → (add_active_search mw st s now).2 = st) ∧
    ((add_active_search mw st s now).1 = true →
      s ∈ (add_active_search mw st s now).2.active ∧
      assocGet (add_active_search mw st s now).2.timestamps s = some now ∧
      (s ∈ st.active → (add_active_search mw st s now).2.active = st.active) ∧
      scard (add_active_search mw st s now).2.active ≤ mw) := by
  by_cases h : mw ≤ scard st.active
  · have hres : add_active_search mw st s now = (false, st) := by
      unfold add_active_search
      rw [if_pos h]
    rw [hres]
    refine ⟨by simpa using h, fun _ => rfl, fun habs => by simp at habs⟩
  · have hres : add_active_search mw st s now
        = (true, ⟨sadd st.active s, assocSet st.timestamps s now⟩) := by
      unfold add_active_search
      rw [if_neg h]
    rw [hres]
    refine ⟨by simpa using h, fun habs => by simp at habs, fun _ => ?_⟩
    refine ⟨mem_sadd_self _ _, assocGet_assocSet _ _ _, fun hmem => sadd_of_mem hmem, ?_⟩
    have := sadd_length st.active s
    simp only [scard] at h ⊢
    omega

/-- Witness instantiating the amended C4 at the empty registry. -/
theorem c4_try_register_spec_witness :
    ((add_active_search 10 (RegistryState.mk [] []) "aaaa" 7).1 = true) ∧
    "aaaa" ∈ (add_active_search 10 (RegistryState.mk [] []) "aaaa" 7).2.active :=
  ⟨rfl, ((c4_try_register_spec 10 (RegistryState.mk [] []) "aaaa" 7).2.2 rfl).1⟩

theorem foldl_invariant {α β : Type} (f : β → α → β) (P : β → Prop)
    (hstep : ∀ acc x, P acc → P (f acc x)) :
    ∀ (l : List α) (init : β), P init → P (l.foldl f init) := by
  intro l
  induction l with
  | nil => intro init h; exact h
  | cons x l ih =>
    intro init h
    exact ih (f init x) (hstep init x h)

theorem assocGet_none_of_del {α β : Type} [DecidableEq α] {l : List (α × β)} {s k : α}
    (h : assocGet l s = none) : assocGet (assocDel l k) s = none := by
  unfold assocGet at h ⊢
  rw [Option.map_eq_none'] at h ⊢
  rw [List.find?_eq_none] at h ⊢
  intro p hp
  exact h p (List.mem_of_mem_filter hp)

theorem mem_srem_of_ne {l : List String} {s x : String} (hmem : s ∈ l) (hne : s ≠ x) :
    s ∈ srem l x := by
  unfold srem
  refine List.mem_filter.mpr ⟨hmem, ?_⟩
  simp [hne]

/-- C10: a member of the active set with no entry in the timestamps hash is
never removed by stale cleanup: it survives every cleanup pass with its
timestamp entry still absent, is returned by `get_active_searches`, and is
counted by `get_active_search_count` — permanently occupying a worker slot. -/
theorem c10_missing_timestamp_never_evicted (st : RegistryState) (s : String)
    (search_timeout now : ℚ) (hmem : s ∈ st.active)
    (hts : assocGet st.timestamps s = none) :
    s ∈ (cleanup_stale_searches search_timeout now st).active ∧
    assocGet (cleanup_stale_searches search_timeout now st).timestamps s = none ∧
    s ∈ (get_active_searches search_timeout now st).1 ∧
    1 ≤ (get_active_search_count search_timeout now st).1 := by
  have hinv : s ∈ (cleanup_stale_searches search_timeout now st).active ∧
      assocGet (cleanup_stale_searches search_timeout now st).timestamps s = none := by
    unfold cleanup_stale_searches
    apply foldl_invariant _
      (fun acc : RegistryState => s ∈ acc.active ∧ assocGet acc.timestamps s = none)
    · intro acc x ⟨hin, hnone⟩
      cases hx : assocGet st.timestamps x with
      | none => exact ⟨hin, hnone⟩
      | some t =>
        show s ∈ (if t + search_timeout < now then remove_active_search acc x else acc).active ∧
          assocGet (if t + search_timeout < now
            then remove_active_search acc x else acc).timestamps s = none
        by_cases hcond : t + search_timeout < now
        · rw [if_pos hcond]
          have hne : s ≠ x := by
            intro he
            rw [← he, hts] at hx
            cases hx
          exact ⟨mem_srem_of_ne hin hne, assocGet_none_of_del hnone⟩
        · rw [if_neg hcond]
          exact ⟨hin, hnone⟩
    · exact ⟨hmem, hts⟩
  refine ⟨hinv.1, hinv.2, hinv.1, ?_⟩
  have : (get_active_searches search_timeout now st).1
      = (cleanup_stale_searches search_timeout now st).active := rfl
  unfold get_active_search_count
  rw [this]
  have hne : (cleanup_stale_searches search_timeout now st).active ≠ [] :=
    List.ne_nil_of_mem hinv.1
  have := List.length_pos.mpr hne
  omega

/-- Witness instantiating C10: a ghost member with no timestamp survives a
cleanup pass long after any timeout. -/
theorem c10_missing_timestamp_never_evicted_witness :
    "aaaa" ∈ (RegistryState.mk ["aaaa"] []).active ∧
    assocGet (RegistryState.mk ["aaaa"] []).timestamps "aaaa" = none ∧
    "aaaa" ∈ (get_active_searches 300 1000000 (RegistryState.mk ["aaaa"] [])).1 :=
  ⟨List.mem_cons_self _ _, rfl,
    (c10_missing_timestamp_never_evicted (RegistryState.mk ["aaaa"] []) "aaaa" 300 1000000
      (List.mem_cons_self _ _) rfl).2.2.1⟩

/-- The candidate loop of `_queue_next_search`: `for search_str in
search_strings`, try `add_active_search`; on the first success dispatch one
replacement worker and `break`.  Returns the dispatched prefixes and the final
registry. -/
def queue_next_loop (mw : Nat) (now : ℚ) :
    List String → RegistryState → List String × RegistryState
  | [], st => ([], st)
  | s :: rest, st =>
    if (add_active_search mw st s now).1 then
      ([s], (add_active_search mw st s now).2)
    else
      queue_next_loop mw now rest (add_active_search mw st s now).2

/-- `_queue_next_search`: read the active count (this first runs stale
cleanup); return immediately when already at `max_workers`; otherwise run the
registration loop over the generated candidates. -/
def queue_next_search (mw : Nat) (search_timeout now : ℚ) (candidates : List String)
    (st : RegistryState) : List String × RegistryState :=
  if mw ≤ (get_active_search_count search_timeout now st).1 then
    ([], (get_active_search_count search_timeout now st).2)
  else
    queue_next_loop mw now candidates (get_active_search_count search_timeout now st).2

/-- Outcome of the completion insert (`session.add` / `flush` / `commit`). -/
inductive InsertOutcome
  | ok
  | uniqueViolation
  | otherError
deriving DecidableEq

/-- Result of the completion stage: whether an exception is surfaced, the final
registry, and the replacement prefixes dispatched. -/
structure CompletionResult where
  raised : Bool
  registry : RegistryState
  dispatched : List String
deriving DecidableEq

/-- The completion stage of `_async_search_artist_string` (RECORD, CHAIN and
the outer exception handler): on a successful insert the worker unregisters
the prefix and runs `_queue_next_search`; on a `UniqueViolation` it rolls back
and continues — returning success with no unregister and no chain; on any
other DB error it rolls back and re-raises, and the outer handler unregisters,
chains once and surfaces the error. -/
def completion_phase (outcome : InsertOutcome) (mw : Nat) (search_timeout now : ℚ)
    (candidates : List String) (p : String) (st : RegistryState) : CompletionResult :=
  match outcome with
  | .ok =>
    ⟨false,
      (queue_next_search mw search_timeout now candidates (remove_active_search st p)).2,
      (queue_next_search mw search_timeout now candidates (remove_active_search st p)).1⟩
  | .uniqueViolation => ⟨false, st, []⟩
  | .otherError =>
    ⟨true,
      (queue_next_search mw search_timeout now candidates (remove_active_search st p)).2,
      (queue_next_search mw search_timeout now candidates (remove_active_search st p)).1⟩

/-- Counterexample to C5 as stated: on a unique violation the worker absorbs
the conflict as success but performs neither the unregister nor the chain —
the prefix stays in the active set and nothing is dispatched. -/
theorem c5_counterexample :
    (completion_phase .uniqueViolation 10 300 100 ["aaab"] "aaaa"
        (RegistryState.mk ["aaaa"] [("aaaa", 0)])).raised = false ∧
    "aaaa" ∈ (completion_phase .uniqueViolation 10 300 100 ["aaab"] "aaaa"
        (RegistryState.mk ["aaaa"] [("aaaa", 0)])).registry.active ∧
    (completion_phase .uniqueViolation 10 300 100 ["aaab"] "aaaa"
        (RegistryState.mk ["aaaa"] [("aaaa", 0)])).dispatched = [] :=
  ⟨rfl, List.mem_cons_self _ _, rfl⟩

theorem not_mem_srem_self (l : List String) (p : String) : p ∉ srem l p := by
  unfold srem
  intro h
  have := (List.mem_filter.mp h).2
  simp at this

theorem mem_of_mem_srem {l : List String} {x s : String} (h : x ∈ srem l s) : x ∈ l :=
  List.mem_of_mem_filter h

theorem cleanup_not_mem {p : String} {st : RegistryState} {t n : ℚ}
    (h : p ∉ st.active) : p ∉ (cleanup_stale_searches t n st).active := by
  unfold cleanup_stale_searches
  apply foldl_invariant _ (fun acc : RegistryState => p ∉ acc.active)
  · intro acc x hacc
    cases assocGet st.timestamps x with
    | none => exact hacc
    | some tt =>
      show p ∉ (if tt + t < n then remove_active_search acc x else acc).active
      by_cases hcond : tt + t < n
      · rw [if_pos hcond]
        intro hmem
        exact hacc (mem_of_mem_srem hmem)
      · rw [if_neg hcond]
        exact hacc
  · exact h

theorem mem_sadd_elim {l : List String} {s x : String} (h : x ∈ sadd l s) :
    x ∈ l ∨ x = s := by
  unfold sadd at h
  split at h
  · exact Or.inl h
  · rcases List.mem_append.mp h with h1 | h1
    · exact Or.inl h1
    · exact Or.inr (List.mem_singleton.mp h1)

theorem queue_next_loop_not_mem (mw : Nat) (now : ℚ) (p : String) :
    ∀ (cands : List String) (st : RegistryState), p ∉ st.active → p ∉ cands →
    p ∉ (queue_next_loop mw now cands st).2.active := by
  intro cands
  induction cands with
  | nil => intro st hst _; exact hst
  | cons s rest ih =>
    intro st hst hc
    have hps : p ≠ s := fun he => hc (he ▸ List.mem_cons_self s rest)
    have hprest : p ∉ rest := fun hr => hc (List.mem_cons_of_mem s hr)
    unfold queue_next_loop
    by_cases hguard : mw ≤ scard st.active
    · have hres : add_active_search mw st s now = (false, st) := by
        unfold add_active_search
        rw [if_pos hguard]
      rw [hres]
      simpa using ih st hst hprest
    · have hres : add_active_search mw st s now
          = (true, ⟨sadd st.active s, assocSet st.timestamps s now⟩) := by
        unfold add_active_search
        rw [if_neg hguard]
      rw [hres]
      simp only [if_true]
      intro hmem
      rcases mem_sadd_elim hmem with h1 | h1
      · exact hst h1
      · exact hps h1

theorem queue_next_loop_dispatch_le (mw : Nat) (now : ℚ) :
    ∀ (cands : List String) (st : RegistryState),
    (queue_next_loop mw now cands st).1.length ≤ 1 := by
  intro cands
  induction cands with
  | nil => intro st; simp [queue_next_loop]
  | cons s rest ih =>
    intro st
    unfold queue_next_loop
    split
    · simp
    · exact ih _

theorem queue_next_search_not_mem (mw : Nat) (t now : ℚ) (cands : List String)
    (st : RegistryState) (p : String) (hst : p ∉ st.active) (hc : p ∉ cands) :
    p ∉ (queue_next_search mw t now cands st).2.active := by
  have hclean : p ∉ (get_active_search_count t now st).2.active := cleanup_not_mem hst
  unfold queue_next_search
  split
  · exact hclean
  · exact queue_next_loop_not_mem mw now p cands _ hclean hc

theorem queue_next_search_dispatch_le (mw : Nat) (t now : ℚ) (cands : List String)
    (st : RegistryState) : (queue_next_search mw t now cands st).1.length ≤ 1 := by
  unfold queue_next_search
  split
  · simp
  · exact queue_next_loop_dispatch_le mw now cands _

/-- C5 (amended): on a fresh insert the worker unregisters the prefix and
performs one chain dispatching at most one replacement; on an absorbed
unique-violation conflict it returns success but performs no unregister and no
chain (registry unchanged, nothing dispatched); on any other DB error the
outer handler unregisters, chains once (at most one dispatch) and surfaces the
error.  The prefix is assumed not to reappear among the chain candidates. -/
theorem c5_completion_spec (mw : Nat) (search_timeout now : ℚ)
    (candidates : List String) (p : String) (st : RegistryState)
    (hp : p ∉ candidates) :
    ((completion_phase .ok mw search_timeout now candidates p st).raised = false ∧
      p ∉ (completion_phase .ok mw search_timeout now candidates p st).registry.active ∧
      (completion_phase .ok mw search_timeout now candidates p st).dispatched.length ≤ 1) ∧
    ((completion_phase .uniqueViolation mw search_timeout now candidates p st).raised = false ∧
      (completion_phase .uniqueViolation mw search_timeout now candidates p st).registry = st ∧
      (completion_phase .uniqueViolation mw search_timeout now candidates p st).dispatched
        = []) ∧
    ((completion_phase .otherError mw search_timeout now candidates p st).raised = true ∧
      p ∉ (completion_phase .otherError mw search_timeout now candidates p st).registry.active ∧
      (completion_phase .otherError mw search_timeout now candidates p st).dispatched.length
        ≤ 1) := by
  have hrm : p ∉ (remove_active_search st p).active := not_mem_srem_self st.active p
  refine ⟨⟨rfl, ?_, ?_⟩, ⟨rfl, rfl, rfl⟩, ⟨rfl, ?_, ?_⟩⟩
  · exact queue_next_search_not_mem mw search_timeout now candidates _ p hrm hp
  · exact queue_next_search_dispatch_le mw search_timeout now candidates _
  · exact queue_next_search_not_mem mw search_timeout now candidates _ p hrm hp
  · exact queue_next_search_dispatch_le mw search_timeout now candidates _

/-- Witness instantiating the amended C5 with prefix `"aaaa"` and candidate
`"aaab"`. -/
theorem c5_completion_spec_witness :
    "aaaa" ∉ ["aaab"] ∧
    (completion_phase .ok 10 300 100 ["aaab"] "aaaa"
        (RegistryState.mk ["aaaa"] [("aaaa", 0)])).raised = false :=
  ⟨by decide, (c5_completion_spec 10 300 100 ["aaab"] "aaaa"
    (RegistryState.mk ["aaaa"] [("aaaa", 0)]) (by decide)).1.1⟩

/-- The pagination loop of `_async_search_artist_string`: `while offset <= 950`
request the page at `offset` and accumulate `len(result.artists)`; break when
the page has 0 or fewer than 50 artists; else `next_offset = offset + 50`,
break when `next_offset > 950`, else continue from `next_offset`.  The
function `pages` gives the number of artists the upstream returns at each
offset; the result is the list of issued offsets together with the final
`len(total_artists)`. -/
def search_loop (pages : Nat → Nat) (offset : Nat) : List Nat × Nat :=
  if offset ≤ 950 then
    if pages offset = 0 ∨ pages offset < 50 then
      ([offset], pages offset)
    else if 950 < offset + 50 then
      ([offset], pages offset)
    else
      (offset :: (search_loop pages (offset + 50)).1,
        pages offset + (search_loop pages (offset + 50)).2)
  else ([], 0)
termination_by 951 - offset
decreasing_by omega

theorem search_loop_eq (pages : Nat → Nat) (offset : Nat) :
    search_loop pages offset =
      if offset ≤ 950 then
        if pages offset = 0 ∨ pages offset < 50 then
          ([offset], pages offset)
        else if 950 < offset + 50 then
          ([offset], pages offset)
        else
          (offset :: (search_loop pages (offset + 50)).1,
            pages offset + (search_loop pages (offset + 50)).2)
      else ([], 0) := by
  rw [search_loop]

theorem search_loop_offsets_bounded (pages : Nat → Nat) :
    ∀ (fuel offset : Nat), 951 - offset ≤ fuel →
    ∀ o ∈ (search_loop pages offset).1, offset ≤ o ∧ o ≤ 950 := by
  intro fuel
  induction fuel with
  | zero =>
    intro offset hf o ho
    rw [search_loop_eq] at ho
    rw [if_neg (by omega)] at ho
    cases ho
  | succ fuel ih =>
    intro offset hf o ho
    rw [search_loop_eq] at ho
    by_cases h1 : offset ≤ 950
    · rw [if_pos h1] at ho
      by_cases h2 : pages offset = 0 ∨ pages offset < 50
      · rw [if_pos h2] at ho
        have : o = offset := List.mem_singleton.mp ho
        omega
      · rw [if_neg h2] at ho
        by_cases h3 : 950 < offset + 50
        · rw [if_pos h3] at ho
          have : o = offset := List.mem_singleton.mp ho
          omega
        · rw [if_neg h3] at ho
          rcases List.mem_cons.mp ho with h4 | h4
          · omega
          · have := ih (offset + 50) (by omega) o h4
            omega
    · rw [if_neg h1] at ho
      cases ho

theorem search_loop_length_le (pages : Nat → Nat) :
    ∀ (fuel offset : Nat), 951 - offset ≤ 50 * fuel →
    (search_loop pages offset).1.length ≤ fuel := by
  intro fuel
  induction fuel with
  | zero =>
    intro offset hf
    rw [search_loop_eq, if_neg (by omega)]
    simp
  | succ fuel ih =>
    intro offset hf
    rw [search_loop_eq]
    by_cases h1 : offset ≤ 950
    · rw [if_pos h1]
      by_cases h2 : pages offset = 0 ∨ pages offset < 50
      · rw [if_pos h2]; simp
      · rw [if_neg h2]
        by_cases h3 : 950 < offset + 50
        · rw [if_pos h3]; simp
        · rw [if_neg h3]
          have := ih (offset + 50) (by omega)
          simpa using Nat.succ_le_succ this
    · rw [if_neg h1]; simp

/-- The offsets `50*j, 50*(j+1), …` of `m` consecutive pages starting at
page index `j`. -/
def offsets_from (j m : Nat) : List Nat := (List.range m).map fun i => 50 * (j + i)

theorem offsets_from_succ (j m : Nat) :
    offsets_from j (m + 1) = 50 * j :: offsets_from (j + 1) m := by
  unfold offsets_from
  rw [List.range_succ_eq_map, List.map_cons, List.map_map]
  have hf : ((fun i => 50 * (j + i)) ∘ Nat.succ) = fun i => 50 * (j + 1 + i) := by
    funext i
    simp only [Function.comp]
    omega
  rw [hf]
  simp

theorem search_loop_all_fifty (pages : Nat → Nat) :
    ∀ (m j : Nat), j + m = 20 →
    (∀ i, j ≤ i → i < 20 → pages (50 * i) = 50) →
    search_loop pages (50 * j) = (offsets_from j m, 50 * m) := by
  intro m
  induction m with
  | zero =>
    intro j hj _
    have hj20 : j = 20 := by omega
    subst hj20
    rw [search_loop_eq, if_neg (by omega)]
    simp [offsets_from]
  | succ m ih =>
    intro j hj hp
    have hple : 50 * j ≤ 950 := by omega
    have hpage : pages (50 * j) = 50 := hp j (le_refl j) (by omega)
    rw [search_loop_eq, if_pos hple, if_neg (by omega : ¬ (pages (50 * j) = 0 ∨ pages (50 * j) < 50))]
    by_cases hm : m = 0
    · subst hm
      have hj19 : j = 19 := by omega
      subst hj19
      rw [if_pos (by omega : (950 : Nat) < 50 * 19 + 50)]
      rw [hpage, offsets_from_succ]
      simp [offsets_from]
    · rw [if_neg (by omega : ¬ (950 : Nat) < 50 * j + 50)]
      have hnext : 50 * j + 50 = 50 * (j + 1) := by omega
      rw [hnext, ih (j + 1) (by omega) (fun i hi hi20 => hp i (by omega) hi20), hpage]
      simp only [offsets_from_succ, Prod.mk.injEq]
      exact ⟨trivial, by omega⟩

theorem search_loop_short_page (pages : Nat → Nat) :
    ∀ (m j : Nat), j + m < 20 →
    (∀ i, j ≤ i → i < j + m → pages (50 * i) = 50) →
    pages (50 * (j + m)) < 50 →
    search_loop pages (50 * j) = (offsets_from j (m + 1), 50 * m + pages (50 * (j + m))) := by
  intro m
  induction m with
  | zero =>
    intro j hj _ hshort
    have hple : 50 * j ≤ 950 := by omega
    rw [search_loop_eq, if_pos hple,
      if_pos (by simp only [Nat.add_zero] at hshort; omega :
        pages (50 * j) = 0 ∨ pages (50 * j) < 50)]
    simp only [Nat.add_zero] at hshort ⊢
    simp [offsets_from, List.range_succ]
  | succ m ih =>
    intro j hj hp hshort
    have hple : 50 * j ≤ 950 := by omega
    have hpage : pages (50 * j) = 50 := hp j (le_refl j) (by omega)
    rw [search_loop_eq, if_pos hple,
      if_neg (by omega : ¬ (pages (50 * j) = 0 ∨ pages (50 * j) < 50)),
      if_neg (by omega : ¬ (950 : Nat) < 50 * j + 50)]
    have hnext : 50 * j + 50 = 50 * (j + 1) := by omega
    have hidx : j + 1 + m = j + (m + 1) := by omega
    rw [hnext, ih (j + 1) (by omega) (fun i hi hilt => hp i (by omega) (by omega))
      (by rw [hidx]; exact hshort)]
    rw [hpage, hidx]
    simp only [offsets_from_succ, Prod.mk.injEq]
    exact ⟨trivial, by omega⟩

/-- C2: for every upstream behaviour, pagination never issues an offset above
950 and issues at most 20 pages; it stops right after the first page returning
0 or fewer than 50 artists, having issued exactly the offsets 0, 50, …, 50·k;
and when every page through offset 950 returns 50 artists it issues exactly
the 20 offsets 0, 50, …, 950 and the completion row records
`artists_found = 1000`. -/
theorem c2_pagination_spec (pages : Nat → Nat) :
    (∀ o ∈ (search_loop pages 0).1, o ≤ 950) ∧
    (search_loop pages 0).1.length ≤ 20 ∧
    ((∀ i, i < 20 → pages (50 * i) = 50) →
      (search_loop pages 0).1 = (List.range 20).map (fun i => 50 * i) ∧
      (search_loop pages 0).2 = 1000) ∧
    (∀ k, k < 20 → (∀ i, i < k → pages (50 * i) = 50) → pages (50 * k) < 50 →
      (search_loop pages 0).1 = (List.range (k + 1)).map (fun i => 50 * i) ∧
      (search_loop pages 0).2 = 50 * k + pages (50 * k)) := by
  have hzero : (fun i => 50 * (0 + i)) = fun i : Nat => 50 * i := by
    funext i
    omega
  refine ⟨?_, ?_, ?_, ?_⟩
  · intro o ho
    exact (search_loop_offsets_bounded pages 951 0 (by omega) o ho).2
  · exact search_loop_length_le pages 20 0 (by omega)
  · intro hp
    have h := search_loop_all_fifty pages 20 0 (by omega) (fun i _ hi => hp i hi)
    have h50 : (50 : Nat) * 0 = 0 := by omega
    rw [h50] at h
    rw [h]
    constructor
    · unfold offsets_from
      rw [hzero]
    · omega
  · intro k hk hp hshort
    have h0k : 0 + k = k := by omega
    have h := search_loop_short_page pages k 0 (by omega)
      (fun i _ hi => hp i (by omega)) (by rw [h0k]; exact hshort)
    rw [h0k] at h
    have h50 : (50 : Nat) * 0 = 0 := by omega
    rw [h50] at h
    rw [h]
    constructor
    · unfold offsets_from
      rw [hzero]
    · rfl

/-- Witness instantiating C2 with an upstream returning a full page at every
offset: exactly 20 pages and 1000 artists. -/
theorem c2_pagination_spec_witness :
    (∀ i, i < 20 → (fun _ => 50 : Nat → Nat) (50 * i) = 50) ∧
    (search_loop (fun _ => 50) 0).2 = 1000 :=
  ⟨fun i _ => rfl, ((c2_pagination_spec (fun _ => 50)).2.2.1 (fun i _ => rfl)).2⟩

/-- The rate-limit summary assembled by `get_rate_limit_info`. -/
structure RateLimitInfo where
  window_size : Nat
  current_requests : Nat
  max_requests : Nat
  remaining_requests : Nat
  time_until_next_request : ℚ
deriving DecidableEq

/-- Smallest score in the sorted set (`ZRANGE 0 -1 WITHSCORES` returns scores
ascending, so the Python reads `requests[0][1]`). -/
def minScore : List RequestRecord → ℚ
  | [] => 0
  | [r] => r.score
  | r :: rest => min r.score (minScore rest)

/-- `RedisService.get_rate_limit_info`: evict, count all remaining records,
compute the wait until the oldest record leaves the window when at the cap;
the `except` branch degrades to zero current requests, full remaining budget
and zero wait. -/
def get_rate_limit_info (kvUp : Bool) (W R : Nat) (st : RedisState) (now : ℚ) :
    RateLimitInfo × RedisState :=
  if kvUp then
    (⟨W, (zremrangebyscore 0 (now - (W : ℚ)) st.requests).length, R,
        R - (zremrangebyscore 0 (now - (W : ℚ)) st.requests).length,
        if 0 < (zremrangebyscore 0 (now - (W : ℚ)) st.requests).length ∧
            R ≤ (zremrangebyscore 0 (now - (W : ℚ)) st.requests).length
          then max 0 (minScore (zremrangebyscore 0 (now - (W : ℚ)) st.requests) + (W : ℚ) - now)
          else 0⟩,
      { st with requests := zremrangebyscore 0 (now - (W : ℚ)) st.requests })
  else
    (⟨W, 0, R, R, 0⟩, st)

/-- Insertion into a list kept in descending timestamp order. -/
def insertDesc (x : RequestMeta) : List RequestMeta → List RequestMeta
  | [] => [x]
  | y :: rest => if y.timestamp ≤ x.timestamp then x :: y :: rest else y :: insertDesc x rest

/-- Python `sorted(requests, key=timestamp, reverse=True)`. -/
def sortDesc : List RequestMeta → List RequestMeta
  | [] => []
  | x :: rest => insertDesc x (sortDesc rest)

/-- `RedisService.get_window_requests`: tags in the window via
`ZRANGEBYSCORE window_start +inf`, their hashes via `HGETALL` (absent hashes
skipped), sorted by descending timestamp; the `except` branch degrades to the
empty list. -/
def get_window_requests (kvUp : Bool) (W : Nat) (st : RedisState) (now : ℚ) :
    List RequestMeta :=
  if kvUp then
    sortDesc ((st.requests.filter fun r => decide (now - (W : ℚ) ≤ r.score)).filterMap
      fun r => assocGet st.meta r.member)
  else []

/-- The FastAPI dependency `get_redis_service`: `RedisService.init()` raises
when the KV store is unreachable, so the endpoint body never runs. -/
def get_redis_service_dep (kvUp : Bool) : Except String Unit :=
  if kvUp then Except.ok () else Except.error "redis init failed"

/-- `RedisService.get_active_searches` as the endpoint sees it: the
stale-cleanup call catches its own errors, but the final `SMEMBERS` is outside
any try/except, so a KV failure propagates to the endpoint. -/
def api_get_active_searches (kvUp : Bool) (search_timeout now : ℚ) (st : RegistryState) :
    Except String (List String) :=
  if kvUp then Except.ok (get_active_searches search_timeout now st).1
  else Except.error "smembers failed"

/-- The KV-derived part of the `/status` response (the RDBMS aggregates in the
response do not touch the KV store and are omitted). -/
structure StatusResponse where
  active_searches : List String
  active_search_count : Nat
  rate_limit_status : RateLimitInfo
  window_requests : List RequestMeta
deriving DecidableEq

/-- `api.get_system_status`: run the `get_redis_service` dependency, read the
active searches, then assemble rate-limit info and window requests. -/
def get_system_status (kvUp : Bool) (W R : Nat) (search_timeout now : ℚ)
    (rst : RegistryState) (st : RedisState) : Except String StatusResponse :=
  match get_redis_service_dep kvUp with
  | .error e => .error e
  | .ok _ =>
    match api_get_active_searches kvUp search_timeout now rst with
    | .error e => .error e
    | .ok active =>
      .ok ⟨active, active.length, (get_rate_limit_info kvUp W R st now).1,
        get_window_requests kvUp W st now⟩

/-- Counterexample to C9 as stated: with the KV store unavailable the
`/status` endpoint does not return a successful degraded response — the
dependency's `init()` failure propagates and the endpoint errors. -/
theorem c9_counterexample :
    get_system_status false 30 10 300 100 (RegistryState.mk ["aaaa"] [("aaaa", 0)])
      (RedisState.mk [] [] [] none) = Except.error "redis init failed" := rfl

/-- C9 (amended): when the KV store is unavailable the `/status` endpoint
fails (the error from `init()` and from the uncaught `SMEMBERS` in
`get_active_searches` propagates); only the rate-limit summary and the
window-request list individually degrade — to zero current requests, full
remaining budget and an empty list; with the KV store reachable the endpoint
responds successfully. -/
theorem c9_status_spec (W R : Nat) (search_timeout now : ℚ)
    (rst : RegistryState) (st : RedisState) :
    (∃ e, get_system_status false W R search_timeout now rst st = Except.error e) ∧
    (get_rate_limit_info false W R st now).1.current_requests = 0 ∧
    (get_rate_limit_info false W R st now).1.remaining_requests = R ∧
    (get_rate_limit_info false W R st now).1.time_until_next_request = 0 ∧
    get_window_requests false W st now = [] ∧
    (∃ resp, get_system_status true W R search_timeout now rst st = Except.ok resp ∧
      resp.active_searches = (get_active_searches search_timeout now rst).1 ∧
      resp.window_requests = get_window_requests true W st now) :=
  ⟨⟨"redis init failed", rfl⟩, rfl, rfl, rfl, rfl, ⟨_, rfl, rfl, rfl⟩⟩
